import Mathlib

/-!
Verification development for the identity-matching and prototype-maintenance
engine of the face-sorter application (`app-7.py`).

The numeric code operates on numpy float32 arrays; we model scalars as real
numbers (exact arithmetic; float rounding and NaN propagation are outside the
model), vectors as `List ℝ`, and Python dicts as insertion-ordered association
lists.  Cluster ids and person numbers are modelled as integers.  Fallible
paths (a centroid that `np.array` cannot parse) are modelled with `Option` on
the raw input and `Except` on the computation.
-/

namespace FaceSorter

/-- A vector (numpy 1-d float array) is a list of reals. -/
abbrev Vec := List ℝ

/-- The epsilon added to the Euclidean norm in `_normalize_np` (`1e-12`). -/
noncomputable def EPS : ℝ := 1 / 10 ^ 12

/-- Sum of squares of the entries of a vector. -/
def sumSq (v : Vec) : ℝ := (v.map fun x => x * x).sum

/-- `np.linalg.norm` — Euclidean norm. -/
noncomputable def norm2 (v : Vec) : ℝ := Real.sqrt (sumSq v)

/-- `_normalize_np(v)`: divide every entry by `‖v‖ + 1e-12`. -/
noncomputable def normalize_np (v : Vec) : Vec :=
  v.map fun x => x / (norm2 v + EPS)

/-- Dot product of two vectors (`a @ b` for equal-length arrays). -/
def dot (a b : Vec) : ℝ := (List.zipWith (· * ·) a b).sum

/-- Componentwise vector sum. -/
def vecAdd (a b : Vec) : Vec := List.zipWith (· + ·) a b

/-- Scalar multiple of a vector. -/
def vecSMul (c : ℝ) (v : Vec) : Vec := v.map fun x => c * x

/-- Componentwise vector difference. -/
def vecSub (a b : Vec) : Vec := List.zipWith (· - ·) a b

/-- An identity record after load-time migration: the dict
`{"number", "protos", "ema", "count", "thr"}` of `person_index.json`.
`ema` and `thr` are nullable fields. -/
structure Person where
  number : ℤ
  protos : List Vec
  ema : Option Vec
  count : ℤ
  thr : Option ℝ

/-- A raw persisted record before migration: every field other than `number`
may be absent (outer `Option` = key missing) and the nullable ones may be
present-but-null (inner `Option`). `proto` is the legacy singular field. -/
structure RawPerson where
  number : ℤ
  protos : Option (List Vec)
  proto : Option Vec
  ema : Option (Option Vec)
  count : Option ℤ
  thr : Option (Option ℝ)

/-- The migration body of `load_person_index` applied to one record
(lines 265–277 of the source): default `protos` from the legacy `proto`
field, `ema` from the first prototype, `count` from the prototype count
with a floor of 1, `thr` to null. -/
def migratePerson (rp : RawPerson) : Person :=
  let protos := match rp.protos with
    | some ps => ps
    | none => match rp.proto with
      | some v => [v]
      | none => []
  let ema := match rp.ema with
    | some e => e
    | none => protos.head?
  let count := match rp.count with
    | some c => c
    | none => max 1 (protos.length : ℤ)
  let thr := match rp.thr with
    | some t => t
    | none => none
  ⟨rp.number, protos, ema, count, thr⟩

/-- The content of the registry file as seen by `load_person_index`:
`none` = file absent, `some none` = present but `json.loads` fails,
`some (some rps)` = parsed list of raw person records. -/
abbrev RegistryFile := Option (Option (List RawPerson))

/-- `load_person_index`: fail-open on a missing or unparseable file, then
migrate every record. -/
def load_person_index : RegistryFile → List Person
  | none => []
  | some none => []
  | some (some rps) => rps.map migratePerson

/-- `save_person_index` writes all five keys of every record; this is the
record-level image of the persisted JSON (the legacy `proto` key was popped
by migration, so it is absent). -/
def person_to_raw (p : Person) : RawPerson :=
  ⟨p.number, some p.protos, none, some p.ema, some p.count, some p.thr⟩

/-- `save_person_index` at the registry level. -/
def save_person_index (ps : List Person) : RegistryFile :=
  some (some (ps.map person_to_raw))

/-- `np.argmax`: index of the first occurrence of the maximum of a list
(0 on the empty list, which numpy would reject). -/
noncomputable def argmaxIdx {α : Type} [LinearOrder α] : List α → ℕ
  | [] => 0
  | [_] => 0
  | x :: y :: r =>
    let j := argmaxIdx (y :: r)
    if x < (y :: r).getD j y then j + 1 else 0

/-- Maximum of a nonempty list of reals (`np.max`; the empty case is
unreachable in the source and gets a dummy value). -/
def listMaxD : List ℝ → ℝ
  | [] => 0
  | x :: r => r.foldl max x

/-- Componentwise mean of a stack of vectors (`X.mean(0)`). -/
noncomputable def meanVec (X : List Vec) : Vec :=
  vecSMul (1 / (X.length : ℝ)) (X.foldr vecAdd (List.replicate ((X.headD []).length) 0))

/-- The distance row used by the greedy selection: for every row index `j`,
`1 − max_{t ∈ keep} (X[j] · X[t])`, with `-inf` (modelled as `⊥`) at the
already-kept indices (`dists[idx] = -np.inf`). -/
noncomputable def distsFor (X : List Vec) (keep : List ℕ) : List (WithBot ℝ) :=
  (List.range X.length).map fun j =>
    if j ∈ keep then (⊥ : WithBot ℝ)
    else ((1 - listMaxD (keep.map fun t => dot (X.getD j []) (X.getD t []))) : ℝ)

/-- The greedy farthest-point `while` loop of `_update_person_proto`:
while fewer than `k_max` (and fewer than all) rows are kept, add the row
maximizing its minimum cosine distance to the kept set; stop early when
every remaining distance is `-inf`. -/
noncomputable def greedyLoop (X : List Vec) (kmax : ℕ) (keep : List ℕ) : List ℕ :=
  if _h : keep.length < kmax ∧ keep.length < X.length then
    if (distsFor X keep).getD (argmaxIdx (distsFor X keep)) ⊥ = ⊥ then keep
    else greedyLoop X kmax (keep ++ [argmaxIdx (distsFor X keep)])
  else keep
termination_by kmax - keep.length
decreasing_by
  simp only [List.length_append, List.length_cons, List.length_nil]
  omega

/-- The arbitrary-fill fallback: walk the row indices in order, appending any
index not yet kept, stopping as soon as the target size is reached. -/
def fillKeep (target : ℕ) : List ℕ → List ℕ → List ℕ
  | [], keep => keep
  | i :: rest, keep =>
    let keep' := if i ∈ keep then keep else keep ++ [i]
    if target ≤ keep'.length then keep' else fillKeep target rest keep'

/-- The trimming step of `_update_person_proto` (run when the appended
prototype list exceeds `k_max`): seed with the row farthest from the mean,
grow greedily, then fill arbitrarily up to `min k_max |X|`. -/
noncomputable def trimIndices (X : List Vec) (kmax : ℕ) : List ℕ :=
  let d0 := (List.range X.length).map fun j => norm2 (vecSub (X.getD j []) (meanVec X))
  let keep0 := [argmaxIdx d0]
  let keep1 := greedyLoop X kmax keep0
  if keep1.length < min kmax X.length
  then fillKeep (min kmax X.length) (List.range X.length) keep1
  else keep1

/-- `_update_person_proto(person, new_vec, k_max, ema_alpha)`: append the
normalized observation, trim to `k_max` diverse prototypes when the list
overflows, fold the observation into the running average, bump the count. -/
noncomputable def updatePersonProto (p : Person) (newVec : Vec) (kmax : ℕ) (α : ℝ) :
    Person :=
  let nv := normalize_np newVec
  let protos := p.protos ++ [nv]
  let protos' :=
    if kmax < protos.length then
      let X := protos.map normalize_np
      (trimIndices X kmax).map fun i => X.getD i []
    else protos
  let emaSeed := match p.ema with
    | some e => e
    | none => protos'.getD 0 []
  let ema' := normalize_np
    (vecAdd (vecSMul α (normalize_np emaSeed)) (vecSMul (1 - α) (normalize_np newVec)))
  { p with protos := protos', ema := some ema', count := p.count + 1 }

/-- Insertion-ordered dict assignment `d[k] = v`: overwrite in place when the
key exists, append otherwise (Python dict semantics). -/
def insertAssoc {β : Type} : List (ℤ × β) → ℤ → β → List (ℤ × β)
  | [], k, v => [(k, v)]
  | (a, b) :: r, k, v =>
    if a = k then (a, v) :: r else (a, b) :: insertAssoc r k v

/-- Dict lookup `d.get(k)`. -/
def lookupZ {β : Type} : List (ℤ × β) → ℤ → Option β
  | [], _ => none
  | (a, b) :: r, k => if a = k then some b else lookupZ r k

/-- The prototypes a person is matched through: its `protos` list, or the
one-element list `[ema]` when `protos` is empty and `ema` is truthy
(non-null and non-empty). -/
def effProtos (p : Person) : List Vec :=
  if p.protos.isEmpty then
    match p.ema with
    | some e => if e.isEmpty then [] else [e]
    | none => []
  else p.protos

/-- `proto_list` zipped with `proto_owner`: every normalized prototype paired
with its owner's number, in registry order. -/
noncomputable def protoPairs (persons : List Person) : List (Vec × ℤ) :=
  persons.flatMap fun p => (effProtos p).map fun v => (normalize_np v, p.number)

/-- `per_thr`: the per-person custom thresholds present in the registry. -/
def perThr (persons : List Person) : List (ℤ × ℝ) :=
  persons.foldl (fun acc p =>
    match p.thr with
    | some t => insertAssoc acc p.number t
    | none => acc) []

/-- One `per_person_scores` dict update: keep the larger score for an owner
already seen, preserving its dict position; append a new owner. -/
noncomputable def setScore : List (ℤ × ℝ) → ℤ → ℝ → List (ℤ × ℝ)
  | [], o, s => [(o, s)]
  | (a, b) :: r, o, s =>
    if a = o then (if b < s then (a, s) :: r else (a, b) :: r)
    else (a, b) :: setScore r o s

/-- `per_person_scores`: best similarity per owner over all prototype rows,
an insertion-ordered dict keyed by owner number. -/
noncomputable def perPersonScores (pairs : List (Vec × ℤ)) (c : Vec) : List (ℤ × ℝ) :=
  (pairs.map fun pv => (dot pv.1 c, pv.2)).foldl (fun acc so => setScore acc so.2 so.1) []

/-- Stable insertion placing `x` before the first strictly smaller score:
ties keep the earlier element first, as Python's stable `sorted` does. -/
noncomputable def insertDesc (x : ℤ × ℝ) : List (ℤ × ℝ) → List (ℤ × ℝ)
  | [] => [x]
  | y :: r => if x.2 < y.2 then y :: insertDesc x r else x :: y :: r

/-- `sorted(..., key=score, reverse=True)`: a stable sort by score
descending. -/
noncomputable def sortDesc : List (ℤ × ℝ) → List (ℤ × ℝ)
  | [] => []
  | x :: r => insertDesc x (sortDesc r)

/-- The record minted by step 5 for a normalized centroid `c`:
`{"number": n, "protos": [c], "ema": c, "count": 1, "thr": None}`. -/
def mkNewPerson (n : ℤ) (c : Vec) : Person :=
  ⟨n, [c], some c, 1, none⟩

/-- The in-flight state of one `match_and_apply` invocation: the mutable
`persons` list, the `assigned` and `new_nums` dicts, and `cur_max`. -/
structure MState where
  persons : List Person
  assigned : List (ℤ × ℤ)
  new_nums : List (ℤ × ℤ)
  curMax : ℤ

/-- Mint a new identity for cluster `cid` (step 5): bump `cur_max`, record it
in `new_nums`, append the new record. -/
def mint (st : MState) (cid : ℤ) (c : Vec) : MState :=
  { persons := st.persons ++ [mkNewPerson (st.curMax + 1) c]
    assigned := st.assigned
    new_nums := insertAssoc st.new_nums cid (st.curMax + 1)
    curMax := st.curMax + 1 }

/-- `for p in persons: if p["number"] == best_num: _update_person_proto(p, c); break`
— update the first record with the given number (k_max 5, α 0.9, the
call-site defaults). -/
noncomputable def updateFirstPerson : List Person → ℤ → Vec → List Person
  | [], _, _ => []
  | p :: rest, n, c =>
    if p.number = n then updatePersonProto p c 5 (9 / 10) :: rest
    else p :: updateFirstPerson rest n c

/-- The per-candidate loop body of `match_and_apply`: skip a candidate with
no centroid; with a nonempty prototype matrix decide by threshold and
top-2 margin; otherwise mint. -/
noncomputable def matchStep (thr margin : ℝ) (pairs : List (Vec × ℤ))
    (pthr : List (ℤ × ℝ)) (cmap : List (ℤ × Vec)) (st : MState) (cid : ℤ) : MState :=
  match lookupZ cmap cid with
  | none => st
  | some c =>
    if 0 < pairs.length then
      match sortDesc (perPersonScores pairs c) with
      | [] => mint st cid c
      | (bn, s1) :: rest =>
        let s2 : ℝ := match rest with
          | [] => -1
          | y :: _ => y.2
        let thrUse := max thr ((lookupZ pthr bn).getD (-(10 ^ 9)))
        if thrUse ≤ s1 ∧ margin ≤ s1 - s2 then
          { st with assigned := insertAssoc st.assigned cid bn
                    persons := updateFirstPerson st.persons bn c }
        else mint st cid c
    else mint st cid c

/-- The raw centroid dict: a cluster id with either a parseable vector or a
malformed entry (`none`) on which `np.array` would raise. -/
abbrev RawCentroids := List (ℤ × Option Vec)

/-- The centroid-normalization loop at the top of `match_and_apply`; a
malformed vector raises, aborting the invocation. -/
noncomputable def buildCentroids : RawCentroids → Except Unit (List (ℤ × Vec))
  | [] => .ok []
  | (_, none) :: _ => .error ()
  | (cid, some v) :: rest => (buildCentroids rest).map ((cid, normalize_np v) :: ·)

/-- `match_and_apply` (matching core): normalize all centroids, build the
prototype matrix and per-person thresholds once, then fold the per-candidate
step over the eligible clusters in order.  The registry (`persons`) is the
loaded index; `curMax` is the maximum numeric folder name on disk; the file
copies and the final save are outside the model. -/
noncomputable def matchAndApply (persons : List Person) (curMax : ℤ)
    (eligible : List ℤ) (centroids : RawCentroids) (thr margin : ℝ) :
    Except Unit MState :=
  match buildCentroids centroids with
  | .error e => .error e
  | .ok cmap =>
    .ok (eligible.foldl (matchStep thr margin (protoPairs persons) (perThr persons) cmap)
      ⟨persons, [], [], curMax⟩)

/-- The spec's wording of the running-average update:
`normalize(α · running_average + (1−α) · normalize(observed))`, i.e. the
stored average enters the blend un-normalized. -/
noncomputable def specRunningAverage (ra : Vec) (v : Vec) (α : ℝ) : Vec :=
  normalize_np (vecAdd (vecSMul α ra) (vecSMul (1 - α) (normalize_np v)))

/-- Keys of an association-list dict, in insertion order. -/
def keysOf {β : Type} (m : List (ℤ × β)) : List ℤ := m.map Prod.fst

section Lemmas

lemma sumSq_nonneg (v : Vec) : 0 ≤ sumSq v := by
  refine List.sum_nonneg ?_
  intro x hx
  obtain ⟨y, _, rfl⟩ := List.mem_map.mp hx
  exact mul_self_nonneg y

lemma norm2_nonneg (v : Vec) : 0 ≤ norm2 v := Real.sqrt_nonneg _

lemma eps_pos : (0 : ℝ) < EPS := by norm_num [EPS]

lemma dot_self_eq_sumSq (v : Vec) : dot v v = sumSq v := by
  induction v with
  | nil => rfl
  | cons a r ih =>
    show a * a + dot r r = a * a + sumSq r
    rw [ih]

lemma sumSq_map_div (v : Vec) (c : ℝ) :
    sumSq (v.map fun x => x / c) = sumSq v / (c * c) := by
  induction v with
  | nil => simp [sumSq]
  | cons a r ih =>
    simp only [List.map_cons, sumSq, List.sum_cons] at ih ⊢
    rw [ih, div_mul_div_comm, div_add_div_same]

lemma norm2_normalize (v : Vec) :
    norm2 (normalize_np v) = norm2 v / (norm2 v + EPS) := by
  have hc : (0 : ℝ) ≤ norm2 v + EPS := by
    have h1 := norm2_nonneg v; have h2 := eps_pos; linarith
  have h1 : norm2 (normalize_np v) =
      Real.sqrt (sumSq v / ((norm2 v + EPS) * (norm2 v + EPS))) := by
    simp only [norm2, normalize_np]
    rw [sumSq_map_div]
  rw [h1, Real.sqrt_div (sumSq_nonneg v), Real.sqrt_mul_self hc]
  rfl

lemma norm2_single {x : ℝ} (hx : 0 ≤ x) : norm2 [x] = x := by
  have : sumSq [x] = x * x := by simp [sumSq]
  rw [norm2, this, Real.sqrt_mul_self hx]

lemma normalize_single {x : ℝ} (hx : 0 ≤ x) :
    normalize_np [x] = [x / (x + EPS)] := by
  simp [normalize_np, norm2_single hx]

lemma norm2_one : norm2 [(1 : ℝ)] = 1 := norm2_single zero_le_one

end Lemmas

/-- C8: persisting a registry produced by this engine and loading it back
reproduces exactly the same records; the load-time migration defaults are a
no-op on records that carry all five fields. -/
theorem save_load_round_trip (ps : List Person) :
    load_person_index (save_person_index ps) = ps := by
  induction ps with
  | nil => rfl
  | cons p r ih =>
    have h : migratePerson (person_to_raw p) = p := rfl
    simp only [save_person_index, load_person_index, List.map_cons, h] at ih ⊢
    exact congrArg (p :: ·) (by simpa using ih)

/-- C5: `load_person_index` is fail-open — a missing or unparseable file
yields the empty registry — and on a successful parse applies the migration
defaults: legacy `proto` wrapped into a singleton `protos` list, `ema`
defaulted to the first prototype (or absent when there is none), `count`
defaulted to the prototype count with a floor of 1, `thr` defaulted to
absent. -/
theorem load_fail_open_and_migration :
    load_person_index none = [] ∧
    load_person_index (some none) = [] ∧
    (∀ rps, load_person_index (some (some rps)) = rps.map migratePerson) ∧
    (∀ rp v, rp.protos = none → rp.proto = some v → (migratePerson rp).protos = [v]) ∧
    (∀ rp, rp.protos = none → rp.proto = none → (migratePerson rp).protos = []) ∧
    (∀ rp : RawPerson, rp.ema = none →
      (migratePerson rp).ema = (migratePerson rp).protos.head?) ∧
    (∀ rp : RawPerson, rp.count = none →
      (migratePerson rp).count = max 1 ((migratePerson rp).protos.length : ℤ)) ∧
    (∀ rp : RawPerson, rp.thr = none → (migratePerson rp).thr = none) := by
  refine ⟨rfl, rfl, fun _ => rfl, ?_, ?_, ?_, ?_, ?_⟩
  · intro rp v h1 h2; simp [migratePerson, h1, h2]
  · intro rp h1 h2; simp [migratePerson, h1, h2]
  · intro rp h; simp [migratePerson, h]
  · intro rp h; simp [migratePerson, h]
  · intro rp h; simp [migratePerson, h]

/-- Witness for the migration clauses of the load theorem at a concrete
legacy record `{"number": 1, "proto": [1]}`. -/
theorem load_fail_open_and_migration_witness :
    (migratePerson ⟨1, none, some [(1 : ℝ)], none, none, none⟩).protos = [[(1 : ℝ)]] ∧
    (migratePerson ⟨1, none, some [(1 : ℝ)], none, none, none⟩).thr = none := by
  exact ⟨load_fail_open_and_migration.2.2.2.1 _ [(1 : ℝ)] rfl rfl,
         load_fail_open_and_migration.2.2.2.2.2.2.2 _ rfl⟩

/-- C9 counterexample: the result of `_normalize_np` is not unit-length —
already on the unit vector `[1]` its norm is `1/(1+ε) ≠ 1`, because the
epsilon in the denominator always shrinks the vector slightly. -/
theorem normalize_not_unit_length :
    norm2 (normalize_np [(1 : ℝ)]) ≠ 1 := by
  rw [norm2_normalize, norm2_one]
  norm_num [EPS]

/-- C9 (amended): `normalize(v)` is `v / (‖v‖ + ε)` entrywise; its norm is
`‖v‖ / (‖v‖ + ε)`, strictly below 1 but within `ε/‖v‖` of it, and the
self-similarity `normalize(v) · normalize(v)` lies in `[1 − 2ε/‖v‖, 1]` for
any vector of positive norm — approximately 1, but never exactly. -/
theorem normalize_norm_and_self_similarity (v : Vec) :
    normalize_np v = v.map (fun x => x / (norm2 v + EPS)) ∧
    norm2 (normalize_np v) = norm2 v / (norm2 v + EPS) ∧
    norm2 (normalize_np v) < 1 ∧
    (0 < norm2 v →
      1 - norm2 (normalize_np v) ≤ EPS / norm2 v ∧
      dot (normalize_np v) (normalize_np v) ≤ 1 ∧
      1 - 2 * EPS / norm2 v ≤ dot (normalize_np v) (normalize_np v)) := by
  have hN := norm2_nonneg v
  have hE := eps_pos
  have hden : (0 : ℝ) < norm2 v + EPS := by linarith
  have hnn := norm2_normalize v
  refine ⟨rfl, hnn, ?_, ?_⟩
  · rw [hnn, div_lt_one hden]
    linarith
  · intro hpos
    have hdot : dot (normalize_np v) (normalize_np v) =
        sumSq v / ((norm2 v + EPS) * (norm2 v + EPS)) := by
      rw [dot_self_eq_sumSq]
      unfold normalize_np
      exact sumSq_map_div v _
    have hsq : Real.sqrt (sumSq v) * Real.sqrt (sumSq v) = sumSq v :=
      Real.mul_self_sqrt (sumSq_nonneg v)
    have hs : sumSq v = norm2 v * norm2 v := by rw [norm2]; exact hsq.symm
    refine ⟨?_, ?_, ?_⟩
    · have e1 : 1 - norm2 v / (norm2 v + EPS) = EPS / (norm2 v + EPS) := by
        field_simp
      rw [hnn, e1, div_le_div_iff hden hpos]
      nlinarith
    · rw [hdot, hs, div_le_one (by positivity)]
      nlinarith
    · have e2 : 1 - 2 * EPS / norm2 v = (norm2 v - 2 * EPS) / norm2 v := by
        field_simp
      rw [hdot, hs, e2, div_le_div_iff hpos (by positivity)]
      nlinarith [mul_nonneg (mul_nonneg hN hE.le) hE.le,
                 mul_nonneg (mul_nonneg hE.le hE.le) hE.le]

/-- Witness for the self-similarity bounds at the concrete vector `[1]`. -/
theorem normalize_norm_and_self_similarity_witness :
    dot (normalize_np [(1 : ℝ)]) (normalize_np [(1 : ℝ)]) ≤ 1 ∧
    1 - 2 * EPS / norm2 [(1 : ℝ)] ≤
      dot (normalize_np [(1 : ℝ)]) (normalize_np [(1 : ℝ)]) := by
  have h := (normalize_norm_and_self_similarity [(1 : ℝ)]).2.2.2
    (by rw [norm2_one]; norm_num)
  exact ⟨h.2.1, h.2.2⟩

/-- C6 (amended): `_update_person_proto` increments the observation count by
exactly one; when a running average is stored it becomes
`normalize(α · normalize(running_average) + (1−α) · normalize(observed))` —
the stored average is re-normalized before blending, unlike the spec's
formula; and when the running average is absent the blend seeds from the
first prototype of the updated (appended, possibly trimmed) list. -/
theorem update_running_average_and_count (p : Person) (v : Vec) (kmax : ℕ) (α : ℝ) :
    (updatePersonProto p v kmax α).count = p.count + 1 ∧
    (∀ e, p.ema = some e →
      (updatePersonProto p v kmax α).ema =
        some (normalize_np (vecAdd (vecSMul α (normalize_np e))
          (vecSMul (1 - α) (normalize_np v))))) ∧
    (p.ema = none →
      (updatePersonProto p v kmax α).ema =
        some (normalize_np (vecAdd
          (vecSMul α (normalize_np ((updatePersonProto p v kmax α).protos.getD 0 [])))
          (vecSMul (1 - α) (normalize_np v))))) := by
  refine ⟨rfl, ?_, ?_⟩
  · intro e he
    simp only [updatePersonProto, he]
  · intro he
    simp only [updatePersonProto, he]

/-- Witness for the running-average clauses: a record with stored average
`[1]`, and a record with no stored average and no prototypes (seeding from
the freshly appended prototype), both updated with observation `[1]`,
`k_max = 5`, `α = 9/10`. -/
theorem update_running_average_and_count_witness :
    (updatePersonProto ⟨1, [], some [1], 1, none⟩ [(1 : ℝ)] 5 (9 / 10)).count = 1 + 1 ∧
    (updatePersonProto ⟨1, [], some [1], 1, none⟩ [(1 : ℝ)] 5 (9 / 10)).ema =
      some (normalize_np (vecAdd (vecSMul (9 / 10) (normalize_np [1]))
        (vecSMul (1 - 9 / 10) (normalize_np [1])))) ∧
    (updatePersonProto ⟨2, [], none, 0, none⟩ [(1 : ℝ)] 5 (9 / 10)).ema =
      some (normalize_np (vecAdd
        (vecSMul (9 / 10) (normalize_np
          ((updatePersonProto ⟨2, [], none, 0, none⟩ [(1 : ℝ)] 5 (9 / 10)).protos.getD 0 [])))
        (vecSMul (1 - 9 / 10) (normalize_np [1])))) :=
  ⟨(update_running_average_and_count ⟨1, [], some [1], 1, none⟩ [(1 : ℝ)] 5 (9 / 10)).1,
   (update_running_average_and_count ⟨1, [], some [1], 1, none⟩ [(1 : ℝ)] 5 (9 / 10)).2.1
     [1] rfl,
   (update_running_average_and_count ⟨2, [], none, 0, none⟩ [(1 : ℝ)] 5 (9 / 10)).2.2
     rfl⟩

/-- C6 counterexample: on the record with stored running average `[1]` and
observation `[1]`, the code's new running average differs from the spec
formula `normalize(α · running_average + (1−α) · normalize(observed))`,
because the code first re-normalizes the stored average (dividing it by
`1 + ε`). -/
theorem update_running_average_counterexample :
    (updatePersonProto ⟨1, [], some [1], 1, none⟩ [(1 : ℝ)] 5 (9 / 10)).ema ≠
      some (specRunningAverage [(1 : ℝ)] [(1 : ℝ)] (9 / 10)) := by
  have e1 : normalize_np [(1 : ℝ)] = [1 / (1 + EPS)] := normalize_single zero_le_one
  have hEe := eps_pos
  have ha : (0 : ℝ) ≤ 1 / (1 + EPS) := by positivity
  have hs : (0 : ℝ) ≤ 9 / 10 * (1 / (1 + EPS)) + 1 / 10 * (1 / (1 + EPS)) := by
    nlinarith
  have ht : (0 : ℝ) ≤ 9 / 10 + 1 / 10 * (1 / (1 + EPS)) := by nlinarith
  simp only [updatePersonProto, specRunningAverage, e1, List.nil_append,
    List.length_cons, List.length_nil, vecSMul, vecAdd, List.map_cons, List.map_nil,
    List.zipWith_cons_cons, List.zipWith_nil_right, List.zipWith_nil_left]
  norm_num only
  rw [normalize_single hs, normalize_single ht]
  simp only [Option.some.injEq, List.cons.injEq, and_true, ne_eq]
  intro h
  rw [div_eq_div_iff (by positivity) (by positivity)] at h
  rw [EPS] at h
  norm_num at h

lemma argmaxIdx_lt_length {α : Type} [LinearOrder α] :
    ∀ (l : List α), l ≠ [] → argmaxIdx l < l.length
  | [], h => absurd rfl h
  | [_], _ => by simp [argmaxIdx]
  | x :: y :: r, _ => by
    have ih := argmaxIdx_lt_length (y :: r) (by simp)
    simp only [argmaxIdx]
    split
    · simpa using Nat.succ_lt_succ ih
    · simp

lemma greedyLoop_length_le (X : List Vec) (kmax : ℕ) :
    ∀ (fuel : ℕ) (keep : List ℕ), kmax - keep.length ≤ fuel →
      keep.length ≤ kmax → keep.length ≤ X.length →
      (greedyLoop X kmax keep).length ≤ kmax ∧
      (greedyLoop X kmax keep).length ≤ X.length := by
  intro fuel
  induction fuel with
  | zero =>
    intro keep h0 h1 h2
    rw [greedyLoop, dif_neg (by omega)]
    exact ⟨h1, h2⟩
  | succ n ih =>
    intro keep h0 h1 h2
    rw [greedyLoop]
    split
    · next hg =>
      split
      · exact ⟨h1, h2⟩
      · have hlen : (keep ++ [argmaxIdx (distsFor X keep)]).length = keep.length + 1 := by
          simp
        refine ih _ ?_ ?_ ?_ <;> rw [hlen] <;> omega
    · exact ⟨h1, h2⟩

lemma fillKeep_length (target : ℕ) :
    ∀ (l keep : List ℕ), l.Nodup → keep.length < target →
      (fillKeep target l keep).length =
        min target (keep.length + (l.filter (fun x => x ∉ keep)).length) := by
  intro l
  induction l with
  | nil =>
    intro keep _ h
    simp only [fillKeep, List.filter_nil, List.length_nil, Nat.add_zero]
    omega
  | cons i rest ih =>
    intro keep hnd h
    rw [fillKeep]
    by_cases hi : i ∈ keep
    · simp only [if_pos hi]
      rw [if_neg (by omega)]
      rw [ih keep hnd.of_cons h]
      simp [List.filter_cons, hi]
    · have hfc : ((i :: rest).filter (fun x => x ∉ keep)).length =
          (rest.filter (fun x => x ∉ keep)).length + 1 := by
        simp [List.filter_cons, hi]
      simp only [if_neg hi]
      by_cases ht : target ≤ (keep ++ [i]).length
      · rw [if_pos ht, hfc]
        simp only [List.length_append, List.length_cons, List.length_nil] at ht ⊢
        omega
      · rw [if_neg ht]
        have hkeep' : (keep ++ [i]).length < target := by omega
        rw [ih (keep ++ [i]) hnd.of_cons hkeep']
        have hfeq : rest.filter (fun x => x ∉ keep ++ [i]) =
            rest.filter (fun x => x ∉ keep) := by
          apply List.filter_congr
          intro x hx
          have hxi : x ≠ i := fun hcon => (hnd.not_mem (hcon ▸ hx)).elim
          simp [List.mem_append, hxi]
        rw [hfeq, hfc]
        simp only [List.length_append, List.length_cons, List.length_nil]
        omega

lemma length_filter_mem_le (keep : List ℕ) (n : ℕ) :
    ((List.range n).filter (fun x => x ∈ keep)).length ≤ keep.length := by
  have h1 : ((List.range n).filter (fun x => x ∈ keep)).Nodup :=
    (List.nodup_range n).filter _
  have h2 : ((List.range n).filter (fun x => x ∈ keep)).toFinset ⊆ keep.toFinset := by
    intro a ha
    simp only [List.mem_toFinset, List.mem_filter] at ha ⊢
    simpa using ha.2
  calc ((List.range n).filter (fun x => x ∈ keep)).length
      = ((List.range n).filter (fun x => x ∈ keep)).toFinset.card :=
        (List.toFinset_card_of_nodup h1).symm
    _ ≤ keep.toFinset.card := Finset.card_le_card h2
    _ ≤ keep.length := by
        have h3 := List.card_toFinset keep
        have h4 := (List.dedup_sublist keep).length_le
        omega

lemma trim_aux (X : List Vec) (kmax : ℕ) (keep1 : List ℕ)
    (h1 : keep1.length ≤ kmax) (h2 : keep1.length ≤ X.length) :
    (if keep1.length < min kmax X.length
      then fillKeep (min kmax X.length) (List.range X.length) keep1
      else keep1).length = min kmax X.length := by
  by_cases hlt : keep1.length < min kmax X.length
  · rw [if_pos hlt, fillKeep_length _ _ _ (List.nodup_range _) hlt]
    have hsplit := @List.length_eq_length_filter_add ℕ (List.range X.length)
      (fun x => decide (x ∈ keep1))
    have hmem := length_filter_mem_le keep1 X.length
    simp only [← decide_not] at hsplit
    rw [List.length_range] at hsplit
    omega
  · rw [if_neg hlt]
    omega

lemma trimIndices_length (X : List Vec) (kmax : ℕ) (hk : 1 ≤ kmax) (hX : 1 ≤ X.length) :
    (trimIndices X kmax).length = min kmax X.length := by
  have hkeep1 := greedyLoop_length_le X kmax kmax
    [argmaxIdx ((List.range X.length).map fun j => norm2 (vecSub (X.getD j []) (meanVec X)))]
    (by simp) (by simpa using hk) (by simpa using hX)
  exact trim_aux X kmax _ hkeep1.1 hkeep1.2

lemma updatePersonProto_length (p : Person) (v : Vec) (kmax : ℕ) (α : ℝ)
    (hk : 1 ≤ kmax) :
    (updatePersonProto p v kmax α).protos.length =
      if kmax < p.protos.length + 1 then min kmax (p.protos.length + 1)
      else p.protos.length + 1 := by
  simp only [updatePersonProto]
  by_cases hc : kmax < (p.protos ++ [normalize_np v]).length
  · rw [if_pos hc, if_pos (by simpa using hc), List.length_map, trimIndices_length _ _ hk]
    · simp
    · simp
  · rw [if_neg hc, if_neg (by simpa using hc)]
    simp

/-- C3: one `update` call never leaves more than `k_max` prototypes (for any
`k_max ≥ 1`, matching the call-site default 5), and whenever the trimming
step runs — i.e. the appended list exceeded `k_max` — the kept set has
exactly `min(k_max, available)` entries, the arbitrary-fill fallback topping
up whatever the greedy selection left short; consequently the bound holds
after any sequence of `update` calls. -/
theorem prototypes_bounded (kmax : ℕ) (α : ℝ) (hk : 1 ≤ kmax) :
    (∀ (p : Person) (v : Vec), kmax < p.protos.length + 1 →
      (updatePersonProto p v kmax α).protos.length = min kmax (p.protos.length + 1)) ∧
    (∀ (p : Person) (vs : List Vec), p.protos.length ≤ kmax →
      ((vs.foldl (fun q v => updatePersonProto q v kmax α) p).protos).length ≤ kmax) := by
  constructor
  · intro p v htrim
    rw [updatePersonProto_length p v kmax α hk, if_pos htrim]
  · intro p vs
    induction vs generalizing p with
    | nil => intro h; exact h
    | cons v rest ih =>
      intro h
      refine ih _ ?_
      rw [updatePersonProto_length p v kmax α hk]
      split <;> omega

/-- Witness: a record already holding 5 prototypes, updated with `k_max = 5`,
keeps exactly `min 5 6 = 5` of them. -/
theorem prototypes_bounded_witness :
    (updatePersonProto ⟨1, [[1], [1], [1], [1], [1]], some [1], 5, none⟩
      [(1 : ℝ)] 5 (9 / 10)).protos.length = min 5 (5 + 1) :=
  (prototypes_bounded 5 (9 / 10) (by norm_num)).1
    ⟨1, [[1], [1], [1], [1], [1]], some [1], 5, none⟩ [(1 : ℝ)] (by norm_num)

section SortLemmas

lemma insertDesc_perm (x : ℤ × ℝ) (l : List (ℤ × ℝ)) :
    (insertDesc x l).Perm (x :: l) := by
  induction l with
  | nil => exact List.Perm.refl _
  | cons y r ih =>
    rw [insertDesc]
    split
    · exact (ih.cons y).trans (List.Perm.swap x y r)
    · exact List.Perm.refl _

lemma sortDesc_perm (l : List (ℤ × ℝ)) : (sortDesc l).Perm l := by
  induction l with
  | nil => exact List.Perm.refl _
  | cons x r ih =>
    exact (insertDesc_perm x (sortDesc r)).trans (ih.cons x)

lemma insertDesc_pairwise (x : ℤ × ℝ) (l : List (ℤ × ℝ))
    (h : l.Pairwise (fun a b => b.2 ≤ a.2)) :
    (insertDesc x l).Pairwise (fun a b => b.2 ≤ a.2) := by
  induction l with
  | nil => simp [insertDesc]
  | cons y r ih =>
    rw [insertDesc]
    rw [List.pairwise_cons] at h
    split
    · next hxy =>
      refine List.pairwise_cons.mpr ⟨?_, ih h.2⟩
      intro z hz
      rcases List.mem_cons.mp ((insertDesc_perm x r).mem_iff.mp hz) with hz1 | hz2
      · exact hz1 ▸ le_of_lt hxy
      · exact h.1 z hz2
    · next hxy =>
      push_neg at hxy
      refine List.pairwise_cons.mpr ⟨?_, List.pairwise_cons.mpr ⟨h.1, h.2⟩⟩
      intro z hz
      rcases List.mem_cons.mp hz with hz1 | hz2
      · exact hz1 ▸ hxy
      · exact le_trans (h.1 z hz2) hxy

lemma sortDesc_pairwise (l : List (ℤ × ℝ)) :
    (sortDesc l).Pairwise (fun a b => b.2 ≤ a.2) := by
  induction l with
  | nil => simp [sortDesc]
  | cons x r ih => exact insertDesc_pairwise x (sortDesc r) ih

lemma setScore_ne_nil (acc : List (ℤ × ℝ)) (o : ℤ) (s : ℝ) :
    setScore acc o s ≠ [] := by
  cases acc with
  | nil => simp [setScore]
  | cons p r =>
    obtain ⟨a, b⟩ := p
    rw [setScore]
    split
    · split <;> simp
    · simp

lemma foldl_setScore_ne_nil :
    ∀ (l : List (ℝ × ℤ)) (acc : List (ℤ × ℝ)), acc ≠ [] →
      l.foldl (fun acc so => setScore acc so.2 so.1) acc ≠ [] := by
  intro l
  induction l with
  | nil => intro acc h; exact h
  | cons p r ih =>
    intro acc _
    exact ih _ (setScore_ne_nil acc p.2 p.1)

lemma perPersonScores_ne_nil (pairs : List (Vec × ℤ)) (c : Vec) (h : pairs ≠ []) :
    perPersonScores pairs c ≠ [] := by
  unfold perPersonScores
  cases pairs with
  | nil => exact absurd rfl h
  | cons pv rest =>
    rw [List.map_cons, List.foldl_cons]
    exact foldl_setScore_ne_nil _ _ (setScore_ne_nil [] _ _)

end SortLemmas

/-- C1: the per-candidate decision of `match_and_apply` against a non-empty
prototype matrix: with `s1` the best per-record score (the head of the
descending stable sort, maximal among all per-record scores), `s2` the
runner-up score (sentinel `-1` exactly when only one record scored), the
candidate is assigned to the top record iff `s1 ≥ max(T, custom_threshold
when present)` and `s1 − s2 ≥ M`; otherwise a brand-new identity is minted —
even when `s1 ≥ T`. -/
theorem match_decision_rule (thr margin : ℝ) (pairs : List (Vec × ℤ))
    (pthr : List (ℤ × ℝ)) (cmap : List (ℤ × Vec)) (st : MState) (cid : ℤ) (c : Vec)
    (hthr : -(10 ^ 9 : ℝ) ≤ thr) (hpairs : pairs ≠ [])
    (hc : lookupZ cmap cid = some c) :
    ∃ bn s1 rest, sortDesc (perPersonScores pairs c) = (bn, s1) :: rest ∧
      (bn, s1) ∈ perPersonScores pairs c ∧
      (∀ z ∈ perPersonScores pairs c, z.2 ≤ s1) ∧
      (rest = [] ↔ (perPersonScores pairs c).length = 1) ∧
      matchStep thr margin pairs pthr cmap st cid =
        (if (match lookupZ pthr bn with
              | some t => max thr t
              | none => thr) ≤ s1 ∧
            margin ≤ s1 - (match rest with
              | [] => (-1 : ℝ)
              | y :: _ => y.2) then
          { st with assigned := insertAssoc st.assigned cid bn
                    persons := updateFirstPerson st.persons bn c }
         else mint st cid c) := by
  have hscores := perPersonScores_ne_nil pairs c hpairs
  have hperm := sortDesc_perm (perPersonScores pairs c)
  have hsorted := sortDesc_pairwise (perPersonScores pairs c)
  cases hsort : sortDesc (perPersonScores pairs c) with
  | nil =>
    rw [hsort] at hperm
    exact absurd hperm.symm.eq_nil hscores
  | cons hd rest =>
    obtain ⟨bn, s1⟩ := hd
    rw [hsort] at hperm hsorted
    refine ⟨bn, s1, rest, rfl, ?_, ?_, ?_, ?_⟩
    · exact hperm.mem_iff.mp (List.mem_cons_self (bn, s1) rest)
    · intro z hz
      rcases List.mem_cons.mp (hperm.symm.mem_iff.mp hz) with h1 | h2
      · exact h1 ▸ le_refl _
      · exact (List.pairwise_cons.mp hsorted).1 z h2
    · constructor
      · intro hrest
        have := hperm.length_eq
        rw [hrest] at this
        simpa using this.symm
      · intro hlen
        have := hperm.length_eq
        rw [hlen] at this
        simpa using this
    · rw [matchStep, hc]
      simp only [hsort]
      rw [if_pos (List.length_pos.mpr hpairs)]
      cases hpt : lookupZ pthr bn with
      | some t => rfl
      | none =>
        have hmax : max thr ((Option.none : Option ℝ).getD (-(10 ^ 9 : ℝ))) = thr := by
          simp only [Option.getD_none]
          exact max_eq_left hthr
        rw [hmax]

/-- Witness for the decision rule on a one-record registry with prototype
`[1]`, candidate `[1]`, `T = 0.52`, `M = 0.08`. -/
theorem match_decision_rule_witness :
    ∃ bn s1 rest,
      sortDesc (perPersonScores [([(1 : ℝ)], (1 : ℤ))] [(1 : ℝ)]) = (bn, s1) :: rest ∧
      (bn, s1) ∈ perPersonScores [([(1 : ℝ)], (1 : ℤ))] [(1 : ℝ)] ∧
      (∀ z ∈ perPersonScores [([(1 : ℝ)], (1 : ℤ))] [(1 : ℝ)], z.2 ≤ s1) ∧
      (rest = [] ↔ (perPersonScores [([(1 : ℝ)], (1 : ℤ))] [(1 : ℝ)]).length = 1) ∧
      matchStep (52 / 100) (8 / 100) [([(1 : ℝ)], (1 : ℤ))] [] [(7, [(1 : ℝ)])]
          ⟨[], [], [], 0⟩ 7 =
        (if (match lookupZ [] bn with
              | some t => max (52 / 100 : ℝ) t
              | none => (52 / 100 : ℝ)) ≤ s1 ∧
            (8 / 100 : ℝ) ≤ s1 - (match rest with
              | [] => (-1 : ℝ)
              | y :: _ => y.2) then
          { MState.mk [] [] [] 0 with
              assigned := insertAssoc [] 7 bn
              persons := updateFirstPerson [] bn [(1 : ℝ)] }
         else mint ⟨[], [], [], 0⟩ 7 [(1 : ℝ)]) :=
  match_decision_rule (52 / 100) (8 / 100) [([(1 : ℝ)], (1 : ℤ))] [] [(7, [(1 : ℝ)])]
    ⟨[], [], [], 0⟩ 7 [(1 : ℝ)] (by norm_num) (by simp) (by simp [lookupZ])

section FoldLemmas

lemma updateFirstPerson_length (ps : List Person) (n : ℤ) (c : Vec) :
    (updateFirstPerson ps n c).length = ps.length := by
  induction ps with
  | nil => rfl
  | cons p r ih =>
    rw [updateFirstPerson]
    split <;> simp [ih]

lemma keysOf_insertAssoc {β : Type} (m : List (ℤ × β)) (k : ℤ) (v : β) (a : ℤ) :
    a ∈ keysOf (insertAssoc m k v) ↔ a ∈ keysOf m ∨ a = k := by
  induction m with
  | nil => simp [insertAssoc, keysOf]
  | cons p r ih =>
    obtain ⟨b, w⟩ := p
    rw [insertAssoc]
    split
    · next hbk =>
      subst hbk
      simp only [keysOf, List.map_cons, List.mem_cons]
      tauto
    · simp only [keysOf, List.map_cons, List.mem_cons] at ih ⊢
      tauto

lemma insertAssoc_of_not_mem {β : Type} (m : List (ℤ × β)) (k : ℤ) (v : β)
    (h : k ∉ keysOf m) : insertAssoc m k v = m ++ [(k, v)] := by
  induction m with
  | nil => rfl
  | cons p r ih =>
    obtain ⟨b, w⟩ := p
    simp only [keysOf, List.map_cons, List.mem_cons] at h
    push_neg at h
    rw [insertAssoc, if_neg (fun hbk => h.1 hbk.symm), ih (by simpa [keysOf] using h.2)]
    rfl

lemma matchStep_effects (thr margin : ℝ) (pairs : List (Vec × ℤ)) (pthr : List (ℤ × ℝ))
    (cmap : List (ℤ × Vec)) (st : MState) (cid : ℤ) :
    (lookupZ cmap cid = none ∧ matchStep thr margin pairs pthr cmap st cid = st) ∨
    ((lookupZ cmap cid).isSome ∧ ∃ bn c,
      matchStep thr margin pairs pthr cmap st cid =
        { st with assigned := insertAssoc st.assigned cid bn
                  persons := updateFirstPerson st.persons bn c }) ∨
    ((lookupZ cmap cid).isSome ∧ ∃ c,
      matchStep thr margin pairs pthr cmap st cid = mint st cid c) := by
  cases hc : lookupZ cmap cid with
  | none =>
    left
    exact ⟨rfl, by simp only [matchStep, hc]⟩
  | some c =>
    by_cases hp : 0 < pairs.length
    · cases hs : sortDesc (perPersonScores pairs c) with
      | nil =>
        right; right
        refine ⟨rfl, c, ?_⟩
        simp only [matchStep, hc, hs, if_pos hp]
      | cons hd rest =>
        obtain ⟨bn, s1⟩ := hd
        cases rest with
        | nil =>
          by_cases hcond : max thr ((lookupZ pthr bn).getD (-(10 ^ 9 : ℝ))) ≤ s1 ∧
              margin ≤ s1 - (-1 : ℝ)
          · right; left
            refine ⟨rfl, bn, c, ?_⟩
            simp only [matchStep, hc, hs, if_pos hp]
            rw [if_pos hcond]
          · right; right
            refine ⟨rfl, c, ?_⟩
            simp only [matchStep, hc, hs, if_pos hp]
            rw [if_neg hcond]
        | cons y tail =>
          by_cases hcond : max thr ((lookupZ pthr bn).getD (-(10 ^ 9 : ℝ))) ≤ s1 ∧
              margin ≤ s1 - y.2
          · right; left
            refine ⟨rfl, bn, c, ?_⟩
            simp only [matchStep, hc, hs, if_pos hp]
            rw [if_pos hcond]
          · right; right
            refine ⟨rfl, c, ?_⟩
            simp only [matchStep, hc, hs, if_pos hp]
            rw [if_neg hcond]
    · right; right
      refine ⟨rfl, c, ?_⟩
      simp only [matchStep, hc, if_neg hp]

lemma mint_new_nums_append (st : MState) (cid : ℤ) (c : Vec)
    (h : cid ∉ keysOf st.new_nums) :
    (mint st cid c).new_nums = st.new_nums ++ [(cid, st.curMax + 1)] :=
  insertAssoc_of_not_mem _ _ _ h

lemma fold_persons_length (thr margin : ℝ) (pairs : List (Vec × ℤ))
    (pthr : List (ℤ × ℝ)) (cmap : List (ℤ × Vec)) :
    ∀ (l : List ℤ) (st : MState), l.Nodup →
      (∀ cid ∈ l, cid ∉ keysOf st.new_nums) →
      (l.foldl (matchStep thr margin pairs pthr cmap) st).persons.length +
          st.new_nums.length =
        st.persons.length +
          (l.foldl (matchStep thr margin pairs pthr cmap) st).new_nums.length := by
  intro l
  induction l with
  | nil => intro st _ _; rfl
  | cons c0 l ih =>
    intro st hnd hfresh
    have hnd' := hnd.of_cons
    have hc0l : c0 ∉ l := (List.nodup_cons.mp hnd).1
    rw [List.foldl_cons]
    rcases matchStep_effects thr margin pairs pthr cmap st c0 with
      ⟨_, heq⟩ | ⟨_, bn, c, heq⟩ | ⟨_, c, heq⟩
    · rw [heq]
      exact ih st hnd' (fun cid hcid => hfresh cid (List.mem_cons_of_mem c0 hcid))
    · rw [heq]
      have h1 := ih { st with assigned := insertAssoc st.assigned c0 bn
                              persons := updateFirstPerson st.persons bn c }
        hnd' (fun cid hcid => hfresh cid (List.mem_cons_of_mem c0 hcid))
      simpa [updateFirstPerson_length] using h1
    · rw [heq]
      have hins := mint_new_nums_append st c0 c (hfresh c0 (List.mem_cons_self c0 l))
      have hmfresh : ∀ cid ∈ l, cid ∉ keysOf (mint st c0 c).new_nums := by
        intro cid hcid
        rw [hins]
        simp only [keysOf, List.map_append, List.mem_append, List.map_cons,
          List.map_nil, List.mem_cons, List.not_mem_nil, or_false]
        rintro (h1 | h2)
        · exact hfresh cid (List.mem_cons_of_mem c0 hcid) h1
        · exact hc0l (h2 ▸ hcid)
      have h1 := ih (mint st c0 c) hnd' hmfresh
      have hlen1 : (mint st c0 c).new_nums.length = st.new_nums.length + 1 := by
        rw [hins]; simp
      have hlen2 : (mint st c0 c).persons.length = st.persons.length + 1 := by
        simp [mint]
      omega

lemma fold_preserve (thr margin : ℝ) (pairs : List (Vec × ℤ)) (pthr : List (ℤ × ℝ))
    (cmap : List (ℤ × Vec)) :
    ∀ (l : List ℤ) (st : MState) (a : ℤ), a ∉ l →
      ((a ∈ keysOf (l.foldl (matchStep thr margin pairs pthr cmap) st).assigned ↔
        a ∈ keysOf st.assigned) ∧
       (a ∈ keysOf (l.foldl (matchStep thr margin pairs pthr cmap) st).new_nums ↔
        a ∈ keysOf st.new_nums)) := by
  intro l
  induction l with
  | nil => intro st a _; exact ⟨Iff.rfl, Iff.rfl⟩
  | cons c0 l ih =>
    intro st a ha
    have hac0 : a ≠ c0 := fun h => ha (h ▸ List.mem_cons_self c0 l)
    have hal : a ∉ l := fun h => ha (List.mem_cons_of_mem c0 h)
    rw [List.foldl_cons]
    rcases matchStep_effects thr margin pairs pthr cmap st c0 with
      ⟨_, heq⟩ | ⟨_, bn, c, heq⟩ | ⟨_, c, heq⟩
    · rw [heq]; exact ih st a hal
    · rw [heq]
      have h1 := ih { st with assigned := insertAssoc st.assigned c0 bn
                              persons := updateFirstPerson st.persons bn c } a hal
      constructor
      · rw [h1.1]
        simp only [keysOf_insertAssoc]
        exact ⟨fun h => h.elim id (fun h2 => absurd h2 hac0), Or.inl⟩
      · exact h1.2
    · rw [heq]
      have h1 := ih (mint st c0 c) a hal
      constructor
      · exact h1.1
      · rw [h1.2]
        simp only [mint, keysOf_insertAssoc]
        exact ⟨fun h => h.elim id (fun h2 => absurd h2 hac0), Or.inl⟩

lemma fold_outcome (thr margin : ℝ) (pairs : List (Vec × ℤ)) (pthr : List (ℤ × ℝ))
    (cmap : List (ℤ × Vec)) :
    ∀ (l : List ℤ) (st : MState), l.Nodup →
      (∀ cid ∈ l, cid ∉ keysOf st.assigned ∧ cid ∉ keysOf st.new_nums) →
      ∀ cid ∈ l,
        (lookupZ cmap cid = none →
          cid ∉ keysOf (l.foldl (matchStep thr margin pairs pthr cmap) st).assigned ∧
          cid ∉ keysOf (l.foldl (matchStep thr margin pairs pthr cmap) st).new_nums) ∧
        ((lookupZ cmap cid).isSome →
          (cid ∈ keysOf (l.foldl (matchStep thr margin pairs pthr cmap) st).assigned ∧
           cid ∉ keysOf (l.foldl (matchStep thr margin pairs pthr cmap) st).new_nums) ∨
          (cid ∉ keysOf (l.foldl (matchStep thr margin pairs pthr cmap) st).assigned ∧
           cid ∈ keysOf (l.foldl (matchStep thr margin pairs pthr cmap) st).new_nums)) := by
  intro l
  induction l with
  | nil => intro st _ _ cid hcid; exact absurd hcid (List.not_mem_nil cid)
  | cons c0 l ih =>
    intro st hnd hfresh cid hcid
    have hnd' := hnd.of_cons
    have hc0l : c0 ∉ l := (List.nodup_cons.mp hnd).1
    rw [List.foldl_cons]
    rcases List.mem_cons.mp hcid with hhead | htail
    · subst hhead
      rcases matchStep_effects thr margin pairs pthr cmap st cid with
        ⟨hn, heq⟩ | ⟨hsome, bn, c, heq⟩ | ⟨hsome, c, heq⟩
      · rw [heq]
        have hpres := fold_preserve thr margin pairs pthr cmap l st cid hc0l
        constructor
        · intro _
          exact ⟨fun h => (hfresh cid hcid).1 (hpres.1.mp h),
                 fun h => (hfresh cid hcid).2 (hpres.2.mp h)⟩
        · intro hchk
          rw [hn] at hchk
          exact absurd hchk (by simp)
      · rw [heq]
        have hpres := fold_preserve thr margin pairs pthr cmap l
          { st with assigned := insertAssoc st.assigned cid bn
                    persons := updateFirstPerson st.persons bn c } cid hc0l
        constructor
        · intro hn
          rw [hn] at hsome
          exact absurd hsome (by simp)
        · intro _
          left
          constructor
          · exact hpres.1.mpr (by simp [keysOf_insertAssoc])
          · exact fun h => (hfresh cid hcid).2 (hpres.2.mp h)
      · rw [heq]
        have hpres := fold_preserve thr margin pairs pthr cmap l (mint st cid c) cid hc0l
        constructor
        · intro hn
          rw [hn] at hsome
          exact absurd hsome (by simp)
        · intro _
          right
          constructor
          · exact fun h => (hfresh cid hcid).1 (hpres.1.mp h)
          · exact hpres.2.mpr (by simp [mint, keysOf_insertAssoc])
    · have hcidc0 : cid ≠ c0 := fun h => hc0l (h ▸ htail)
      rcases matchStep_effects thr margin pairs pthr cmap st c0 with
        ⟨_, heq⟩ | ⟨_, bn, c, heq⟩ | ⟨_, c, heq⟩
      · rw [heq]
        exact ih st hnd' (fun x hx => hfresh x (List.mem_cons_of_mem c0 hx)) cid htail
      · rw [heq]
        refine ih _ hnd' ?_ cid htail
        intro x hx
        have hx0 : x ≠ c0 := fun h => hc0l (h ▸ hx)
        have h1 := hfresh x (List.mem_cons_of_mem c0 hx)
        constructor
        · simp only [keysOf_insertAssoc]
          rintro (h2 | h2)
          · exact h1.1 h2
          · exact hx0 h2
        · exact h1.2
      · rw [heq]
        refine ih _ hnd' ?_ cid htail
        intro x hx
        have hx0 : x ≠ c0 := fun h => hc0l (h ▸ hx)
        have h1 := hfresh x (List.mem_cons_of_mem c0 hx)
        constructor
        · exact h1.1
        · simp only [mint, keysOf_insertAssoc]
          rintro (h2 | h2)
          · exact h1.2 h2
          · exact hx0 h2

lemma fold_minted (thr margin : ℝ) (pairs : List (Vec × ℤ)) (pthr : List (ℤ × ℝ))
    (cmap : List (ℤ × Vec)) :
    ∀ (l : List ℤ) (st : MState), l.Nodup →
      (∀ cid ∈ l, cid ∉ keysOf st.new_nums) →
      ∃ ext : List (ℤ × ℤ),
        (l.foldl (matchStep thr margin pairs pthr cmap) st).new_nums =
          st.new_nums ++ ext ∧
        (l.foldl (matchStep thr margin pairs pthr cmap) st).curMax =
          st.curMax + ext.length ∧
        ext.map Prod.snd =
          (List.range ext.length).map (fun i : ℕ => st.curMax + 1 + (i : ℤ)) ∧
        keysOf ext ⊆ l := by
  intro l
  induction l with
  | nil =>
    intro st _ _
    exact ⟨[], by simp, by simp, by simp, by simp [keysOf]⟩
  | cons c0 l ih =>
    intro st hnd hfresh
    have hnd' := hnd.of_cons
    have hc0l : c0 ∉ l := (List.nodup_cons.mp hnd).1
    rw [List.foldl_cons]
    rcases matchStep_effects thr margin pairs pthr cmap st c0 with
      ⟨_, heq⟩ | ⟨_, bn, c, heq⟩ | ⟨_, c, heq⟩
    · rw [heq]
      obtain ⟨ext, h1, h2, h3, h4⟩ :=
        ih st hnd' (fun x hx => hfresh x (List.mem_cons_of_mem c0 hx))
      exact ⟨ext, h1, h2, h3, fun a ha => List.mem_cons_of_mem c0 (h4 ha)⟩
    · rw [heq]
      obtain ⟨ext, h1, h2, h3, h4⟩ :=
        ih { st with assigned := insertAssoc st.assigned c0 bn
                     persons := updateFirstPerson st.persons bn c }
          hnd' (fun x hx => hfresh x (List.mem_cons_of_mem c0 hx))
      exact ⟨ext, h1, h2, h3, fun a ha => List.mem_cons_of_mem c0 (h4 ha)⟩
    · rw [heq]
      have hins := mint_new_nums_append st c0 c (hfresh c0 (List.mem_cons_self c0 l))
      have hmfresh : ∀ x ∈ l, x ∉ keysOf (mint st c0 c).new_nums := by
        intro x hx
        rw [hins]
        simp only [keysOf, List.map_append, List.mem_append, List.map_cons,
          List.map_nil, List.mem_cons, List.not_mem_nil, or_false]
        rintro (h1 | h2)
        · exact hfresh x (List.mem_cons_of_mem c0 hx) h1
        · exact hc0l (h2 ▸ hx)
      obtain ⟨ext, h1, h2, h3, h4⟩ := ih (mint st c0 c) hnd' hmfresh
      refine ⟨(c0, st.curMax + 1) :: ext, ?_, ?_, ?_, ?_⟩
      · rw [h1, hins, List.append_assoc]
        rfl
      · rw [h2]
        simp only [mint, List.length_cons]
        push_cast
        ring
      · simp only [List.map_cons, List.length_cons]
        rw [h3]
        simp only [mint]
        rw [List.range_succ_eq_map, List.map_cons, List.map_map]
        congr 1
        · push_cast
          ring
        · refine List.map_congr_left ?_
          intro i _
          simp only [Function.comp_apply]
          push_cast
          ring
      · intro a ha
        simp only [keysOf, List.map_cons, List.mem_cons] at ha
        rcases ha with h | h
        · exact h ▸ List.mem_cons_self c0 l
        · exact List.mem_cons_of_mem c0 (h4 h)

lemma buildCentroids_error :
    ∀ (cs : RawCentroids), (∃ p ∈ cs, p.2 = (none : Option Vec)) →
      buildCentroids cs = .error () := by
  intro cs
  induction cs with
  | nil =>
    rintro ⟨p, hp, _⟩
    exact absurd hp (List.not_mem_nil p)
  | cons e rest ih =>
    rintro ⟨p, hp, hpn⟩
    obtain ⟨cid, o⟩ := e
    cases o with
    | none => rfl
    | some v =>
      rcases List.mem_cons.mp hp with h | h
      · rw [h] at hpn
        exact absurd hpn (by simp)
      · rw [buildCentroids, ih ⟨p, h, hpn⟩]
        rfl

lemma matchStep_nil_pairs (thr margin : ℝ) (pthr : List (ℤ × ℝ))
    (cmap : List (ℤ × Vec)) (st : MState) (cid : ℤ) :
    matchStep thr margin [] pthr cmap st cid =
      match lookupZ cmap cid with
      | none => st
      | some c => mint st cid c := by
  cases hc : lookupZ cmap cid <;> simp [matchStep, hc]

lemma cold_fold (thr margin : ℝ) (pthr : List (ℤ × ℝ)) (cmap : List (ℤ × Vec)) :
    ∀ (l : List ℤ) (st : MState), l.Nodup →
      (∀ cid ∈ l, cid ∉ keysOf st.new_nums) →
      (l.foldl (matchStep thr margin [] pthr cmap) st).assigned = st.assigned ∧
      keysOf (l.foldl (matchStep thr margin [] pthr cmap) st).new_nums =
        keysOf st.new_nums ++ l.filter (fun cid => (lookupZ cmap cid).isSome) := by
  intro l
  induction l with
  | nil => intro st _ _; exact ⟨rfl, by simp⟩
  | cons c0 l ih =>
    intro st hnd hfresh
    have hnd' := hnd.of_cons
    have hc0l : c0 ∉ l := (List.nodup_cons.mp hnd).1
    rw [List.foldl_cons, matchStep_nil_pairs]
    cases hc : lookupZ cmap c0 with
    | none =>
      have h := ih st hnd' (fun x hx => hfresh x (List.mem_cons_of_mem c0 hx))
      refine ⟨h.1, ?_⟩
      rw [h.2]
      simp [List.filter_cons, hc]
    | some c =>
      have hins := mint_new_nums_append st c0 c (hfresh c0 (List.mem_cons_self c0 l))
      have hmfresh : ∀ x ∈ l, x ∉ keysOf (mint st c0 c).new_nums := by
        intro x hx
        rw [hins]
        simp only [keysOf, List.map_append, List.mem_append, List.map_cons,
          List.map_nil, List.mem_cons, List.not_mem_nil, or_false]
        rintro (h1 | h2)
        · exact hfresh x (List.mem_cons_of_mem c0 hx) h1
        · exact hc0l (h2 ▸ hx)
      have h := ih (mint st c0 c) hnd' hmfresh
      refine ⟨h.1, ?_⟩
      rw [h.2, hins]
      simp [keysOf, List.filter_cons, hc]

/-- Minted numbers of one invocation form the consecutive integer range
starting right above the seed, and the final counter is the seed plus the
number of mints. -/
lemma run_minted_range (persons : List Person) (curMax : ℤ) (eligible : List ℤ)
    (centroids : RawCentroids) (thr margin : ℝ) (r : MState)
    (hnd : eligible.Nodup)
    (h : matchAndApply persons curMax eligible centroids thr margin = .ok r) :
    r.new_nums.map Prod.snd =
      (List.range r.new_nums.length).map (fun i : ℕ => curMax + 1 + (i : ℤ)) ∧
    r.curMax = curMax + r.new_nums.length := by
  rw [matchAndApply] at h
  cases hbc : buildCentroids centroids with
  | error e => rw [hbc] at h; cases h
  | ok cmap =>
    rw [hbc] at h
    have hr : eligible.foldl
        (matchStep thr margin (protoPairs persons) (perThr persons) cmap)
        ⟨persons, [], [], curMax⟩ = r := by
      simpa using h
    obtain ⟨ext, h1, h2, h3, _⟩ := fold_minted thr margin (protoPairs persons)
      (perThr persons) cmap eligible ⟨persons, [], [], curMax⟩ hnd
      (by simp [keysOf])
    rw [hr] at h1 h2
    rw [List.nil_append] at h1
    subst h1
    exact ⟨h3, by simpa using h2⟩

end FoldLemmas

/-- C10: in one invocation each eligible cluster with a present centroid ends
up in exactly one of the two output maps — matched (`assigned`) or minted
(`new_nums`) — never both; a cluster with no centroid is in neither; and
exactly one identity record is appended per minted cluster. -/
theorem per_candidate_exactly_one_outcome
    (persons : List Person) (curMax : ℤ) (eligible : List ℤ)
    (centroids : RawCentroids) (thr margin : ℝ) (r : MState)
    (cmap : List (ℤ × Vec)) (hnd : eligible.Nodup)
    (hok : buildCentroids centroids = .ok cmap)
    (h : matchAndApply persons curMax eligible centroids thr margin = .ok r) :
    r.persons.length = persons.length + r.new_nums.length ∧
    ∀ cid ∈ eligible,
      (lookupZ cmap cid = none →
        cid ∉ keysOf r.assigned ∧ cid ∉ keysOf r.new_nums) ∧
      ((lookupZ cmap cid).isSome →
        (cid ∈ keysOf r.assigned ∧ cid ∉ keysOf r.new_nums) ∨
        (cid ∉ keysOf r.assigned ∧ cid ∈ keysOf r.new_nums)) := by
  rw [matchAndApply, hok] at h
  have hr : eligible.foldl
      (matchStep thr margin (protoPairs persons) (perThr persons) cmap)
      ⟨persons, [], [], curMax⟩ = r := by
    simpa using h
  constructor
  · have h1 := fold_persons_length thr margin (protoPairs persons) (perThr persons)
      cmap eligible ⟨persons, [], [], curMax⟩ hnd (by simp [keysOf])
    rw [hr] at h1
    simpa using h1
  · intro cid hcid
    have h2 := fold_outcome thr margin (protoPairs persons) (perThr persons)
      cmap eligible ⟨persons, [], [], curMax⟩ hnd (by simp [keysOf]) cid hcid
    rw [hr] at h2
    exact h2

/-- Witness for the one-outcome theorem on a singleton batch that mints a new
identity. -/
theorem per_candidate_exactly_one_outcome_witness :
    (MState.mk [mkNewPerson 1 (normalize_np [1])] [] [(5, 1)] 1).persons.length =
      ([] : List Person).length +
        (MState.mk [mkNewPerson 1 (normalize_np [1])] [] [(5, 1)] 1).new_nums.length ∧
    ∀ cid ∈ [(5 : ℤ)],
      (lookupZ [(5, normalize_np [1])] cid = none →
        cid ∉ keysOf (MState.mk [mkNewPerson 1 (normalize_np [1])] [] [(5, 1)] 1).assigned ∧
        cid ∉ keysOf (MState.mk [mkNewPerson 1 (normalize_np [1])] [] [(5, 1)] 1).new_nums) ∧
      ((lookupZ [(5, normalize_np [1])] cid).isSome →
        (cid ∈ keysOf (MState.mk [mkNewPerson 1 (normalize_np [1])] [] [(5, 1)] 1).assigned ∧
         cid ∉ keysOf (MState.mk [mkNewPerson 1 (normalize_np [1])] [] [(5, 1)] 1).new_nums) ∨
        (cid ∉ keysOf (MState.mk [mkNewPerson 1 (normalize_np [1])] [] [(5, 1)] 1).assigned ∧
         cid ∈ keysOf (MState.mk [mkNewPerson 1 (normalize_np [1])] [] [(5, 1)] 1).new_nums)) :=
  per_candidate_exactly_one_outcome [] 0 [5] [(5, some [1])] (52 / 100) (8 / 100)
    (MState.mk [mkNewPerson 1 (normalize_np [1])] [] [(5, 1)] 1)
    [(5, normalize_np [1])] (by simp) rfl
    (by simp [matchAndApply, buildCentroids, matchStep, protoPairs, perThr,
      lookupZ, mint, insertAssoc, mkNewPerson, Except.map])

/-- C4: within one invocation the minted numbers are exactly
`seed+1, seed+2, …` in mint order — strictly increasing, all above the seed
and at most the final counter; across two invocations whose second seed is
at least the first run's final counter, every number minted by the second
run is strictly above every number minted by the first, so numbers never
repeat; and Scenario A: an empty registry with a single candidate yields one
new identity with number 1, prototypes `[normalize(C1)]`, count 1. -/
theorem minted_numbers_monotonic :
    (∀ (persons : List Person) (curMax : ℤ) (eligible : List ℤ)
        (centroids : RawCentroids) (thr margin : ℝ) (r : MState),
      eligible.Nodup →
      matchAndApply persons curMax eligible centroids thr margin = .ok r →
      r.new_nums.map Prod.snd =
        (List.range r.new_nums.length).map (fun i : ℕ => curMax + 1 + (i : ℤ)) ∧
      (r.new_nums.map Prod.snd).Pairwise (· < ·) ∧
      ∀ m ∈ r.new_nums.map Prod.snd, curMax < m ∧ m ≤ r.curMax) ∧
    (∀ (persons : List Person) (curMax : ℤ) (eligible : List ℤ)
        (centroids : RawCentroids) (thr margin : ℝ) (r : MState)
        (persons2 : List Person) (curMax2 : ℤ) (eligible2 : List ℤ)
        (centroids2 : RawCentroids) (thr2 margin2 : ℝ) (r2 : MState),
      eligible.Nodup → eligible2.Nodup →
      matchAndApply persons curMax eligible centroids thr margin = .ok r →
      matchAndApply persons2 curMax2 eligible2 centroids2 thr2 margin2 = .ok r2 →
      r.curMax ≤ curMax2 →
      ∀ m1 ∈ r.new_nums.map Prod.snd, ∀ m2 ∈ r2.new_nums.map Prod.snd, m1 < m2) ∧
    (∀ (v : Vec) (thr margin : ℝ) (cid : ℤ),
      matchAndApply [] 0 [cid] [(cid, some v)] thr margin =
        .ok ⟨[mkNewPerson 1 (normalize_np v)], [], [(cid, 1)], 1⟩) := by
  have hbounds : ∀ (persons : List Person) (curMax : ℤ) (eligible : List ℤ)
      (centroids : RawCentroids) (thr margin : ℝ) (r : MState),
      eligible.Nodup →
      matchAndApply persons curMax eligible centroids thr margin = .ok r →
      ∀ m ∈ r.new_nums.map Prod.snd, curMax < m ∧ m ≤ r.curMax := by
    intro persons curMax eligible centroids thr margin r hnd h m hm
    obtain ⟨hrange, hcur⟩ :=
      run_minted_range persons curMax eligible centroids thr margin r hnd h
    rw [hrange] at hm
    obtain ⟨i, hi, rfl⟩ := List.mem_map.mp hm
    rw [List.mem_range] at hi
    constructor
    · omega
    · rw [hcur]
      omega
  refine ⟨?_, ?_, ?_⟩
  · intro persons curMax eligible centroids thr margin r hnd h
    obtain ⟨hrange, hcur⟩ :=
      run_minted_range persons curMax eligible centroids thr margin r hnd h
    refine ⟨hrange, ?_, hbounds persons curMax eligible centroids thr margin r hnd h⟩
    rw [hrange, List.pairwise_map]
    refine (List.pairwise_lt_range _).imp ?_
    intro a b hab
    omega
  · intro persons curMax eligible centroids thr margin r
      persons2 curMax2 eligible2 centroids2 thr2 margin2 r2 hnd hnd2 h h2 hseed
      m1 hm1 m2 hm2
    have hb1 := hbounds persons curMax eligible centroids thr margin r hnd h m1 hm1
    have hb2 := hbounds persons2 curMax2 eligible2 centroids2 thr2 margin2 r2
      hnd2 h2 m2 hm2
    omega
  · intro v thr margin cid
    simp [matchAndApply, buildCentroids, matchStep, protoPairs, perThr,
      lookupZ, mint, insertAssoc, mkNewPerson, Except.map]

/-- Witness for the minted-number law on the concrete Scenario A run. -/
theorem minted_numbers_monotonic_witness :
    (MState.mk [mkNewPerson 1 (normalize_np [1])] [] [(3, 1)] 1).new_nums.map Prod.snd =
      (List.range
        (MState.mk [mkNewPerson 1 (normalize_np [1])] [] [(3, 1)] 1).new_nums.length).map
        (fun i : ℕ => (0 : ℤ) + 1 + (i : ℤ)) ∧
    ((MState.mk [mkNewPerson 1 (normalize_np [1])] [] [(3, 1)] 1).new_nums.map
      Prod.snd).Pairwise (· < ·) ∧
    ∀ m ∈ (MState.mk [mkNewPerson 1 (normalize_np [1])] [] [(3, 1)] 1).new_nums.map
      Prod.snd, (0 : ℤ) < m ∧
        m ≤ (MState.mk [mkNewPerson 1 (normalize_np [1])] [] [(3, 1)] 1).curMax :=
  minted_numbers_monotonic.1 [] 0 [3] [(3, some [1])] (1 / 2) (8 / 100)
    (MState.mk [mkNewPerson 1 (normalize_np [1])] [] [(3, 1)] 1) (by simp)
    (minted_numbers_monotonic.2.2 [1] (1 / 2) (8 / 100) 3)

/-- C2 counterexample: on a cold start with two identical candidate
centroids, the second candidate does not match the identity just minted for
the first — both are minted (`assigned` stays empty, two new numbers), since
the prototype matrix is built once before the loop and never refreshed. -/
theorem cold_start_counterexample :
    matchAndApply [] 0 [1, 2] [(1, some [1]), (2, some [1])] (52 / 100) (8 / 100) =
      .ok ⟨[mkNewPerson 1 (normalize_np [1]), mkNewPerson 2 (normalize_np [1])],
        [], [(1, 1), (2, 2)], 2⟩ := by
  simp [matchAndApply, buildCentroids, matchStep, protoPairs, perThr,
    lookupZ, mint, insertAssoc, mkNewPerson, Except.map]

/-- C2 (amended): with no prior registry every candidate whose centroid is
present is minted as a new identity — the first becomes `running_max + 1`
and the rest receive the successive numbers; no candidate of the same batch
is ever matched (assigned) to a newly minted identity, because the prototype
matrix is built once at invocation start. -/
theorem cold_start_mints_every_candidate
    (curMax : ℤ) (eligible : List ℤ) (centroids : RawCentroids)
    (thr margin : ℝ) (r : MState) (cmap : List (ℤ × Vec))
    (hnd : eligible.Nodup) (hok : buildCentroids centroids = .ok cmap)
    (h : matchAndApply [] curMax eligible centroids thr margin = .ok r) :
    r.assigned = [] ∧
    keysOf r.new_nums = eligible.filter (fun cid => (lookupZ cmap cid).isSome) ∧
    r.new_nums.map Prod.snd =
      (List.range r.new_nums.length).map (fun i : ℕ => curMax + 1 + (i : ℤ)) := by
  have hrange :=
    (run_minted_range [] curMax eligible centroids thr margin r hnd h).1
  rw [matchAndApply, hok] at h
  have hr : eligible.foldl
      (matchStep thr margin (protoPairs []) (perThr []) cmap)
      ⟨[], [], [], curMax⟩ = r := by
    simpa using h
  have hpp : protoPairs [] = ([] : List (Vec × ℤ)) := rfl
  rw [hpp] at hr
  have hcold := cold_fold thr margin (perThr []) cmap eligible
    ⟨[], [], [], curMax⟩ hnd (by simp [keysOf])
  rw [hr] at hcold
  refine ⟨hcold.1, ?_, hrange⟩
  have h2 := hcold.2
  simpa [keysOf] using h2

/-- Witness for the cold-start law on a two-candidate batch. -/
theorem cold_start_mints_every_candidate_witness :
    (MState.mk [mkNewPerson 1 (normalize_np [1]), mkNewPerson 2 (normalize_np [1])]
      [] [(1, 1), (2, 2)] 2).assigned = [] ∧
    keysOf (MState.mk [mkNewPerson 1 (normalize_np [1]), mkNewPerson 2 (normalize_np [1])]
      [] [(1, 1), (2, 2)] 2).new_nums =
      [(1 : ℤ), 2].filter
        (fun cid => (lookupZ [(1, normalize_np [1]), (2, normalize_np [1])] cid).isSome) ∧
    (MState.mk [mkNewPerson 1 (normalize_np [1]), mkNewPerson 2 (normalize_np [1])]
      [] [(1, 1), (2, 2)] 2).new_nums.map Prod.snd =
      (List.range (MState.mk [mkNewPerson 1 (normalize_np [1]),
        mkNewPerson 2 (normalize_np [1])] [] [(1, 1), (2, 2)] 2).new_nums.length).map
        (fun i : ℕ => (0 : ℤ) + 1 + (i : ℤ)) :=
  cold_start_mints_every_candidate 0 [1, 2] [(1, some [1]), (2, some [1])]
    (52 / 100) (8 / 100)
    (MState.mk [mkNewPerson 1 (normalize_np [1]), mkNewPerson 2 (normalize_np [1])]
      [] [(1, 1), (2, 2)] 2)
    [(1, normalize_np [1]), (2, normalize_np [1])] (by simp) rfl
    (by simp [matchAndApply, buildCentroids, matchStep, protoPairs, perThr,
      lookupZ, mint, insertAssoc, mkNewPerson, Except.map])

/-- C7 counterexample: one malformed centroid aborts the whole invocation —
the other (well-formed) candidate of the batch is not processed either; the
normalization loop at the top of `match_and_apply` raises before the
per-candidate loop starts. -/
theorem malformed_centroid_aborts_batch :
    matchAndApply [] 0 [1, 2] [(1, none), (2, some [1])] (52 / 100) (8 / 100) =
      .error () := rfl

/-- C7 (amended): a candidate whose centroid is missing is skipped — the
invocation behaves exactly as if that cluster id were absent from the batch,
so no assignment is produced for it, no record is mutated for it, and the
rest of the batch is processed; a candidate whose centroid is malformed,
however, aborts the entire invocation with an error. -/
theorem candidate_failure_semantics :
    (∀ (persons : List Person) (curMax : ℤ) (l1 l2 : List ℤ) (cid : ℤ)
        (centroids : RawCentroids) (thr margin : ℝ) (cmap : List (ℤ × Vec)),
      buildCentroids centroids = .ok cmap → lookupZ cmap cid = none →
      matchAndApply persons curMax (l1 ++ cid :: l2) centroids thr margin =
        matchAndApply persons curMax (l1 ++ l2) centroids thr margin) ∧
    (∀ (persons : List Person) (curMax : ℤ) (eligible : List ℤ)
        (centroids : RawCentroids) (thr margin : ℝ),
      (∃ p ∈ centroids, p.2 = (none : Option Vec)) →
      matchAndApply persons curMax eligible centroids thr margin = .error ()) := by
  constructor
  · intro persons curMax l1 l2 cid centroids thr margin cmap hok habs
    rw [matchAndApply, matchAndApply, hok]
    simp only [List.foldl_append, List.foldl_cons]
    rw [matchStep, habs]
  · intro persons curMax eligible centroids thr margin hex
    rw [matchAndApply, buildCentroids_error centroids hex]

/-- Witness for the skip law: a batch `[1, 2]` where cluster 1 has no
centroid behaves exactly like the batch `[2]`. -/
theorem candidate_failure_semantics_witness :
    matchAndApply [] 0 ([] ++ 1 :: [2]) [(2, some [1])] (1 / 2) (8 / 100) =
      matchAndApply [] 0 ([] ++ [2]) [(2, some [1])] (1 / 2) (8 / 100) :=
  candidate_failure_semantics.1 [] 0 [] [2] 1 [(2, some [1])] (1 / 2) (8 / 100)
    [(2, normalize_np [1])] rfl (by simp [lookupZ])

end FaceSorter
